import Mathlib

/-!
Verification development for the `array-ops` crate.

The crate provides array-like trait methods (`src/array.rs`) and an in-place
three-way quicksort (`src/sort.rs`) over any `ArrayMut` implementor.  We embed
the relevant functions shallowly over `List α`:

* the fallible primitives `map_pair`, `swap` and `set` of `ArrayMut` return
  `Option` results, `none` standing for the Rust panic (equal indices in
  `map_pair`, out-of-bounds indexing);
* the sort engine threads an explicit list state and returns an
  `Except (Fail α)` value whose `panicked` case records the list contents at
  the moment a fatal panic fires and whose `spin` case marks exhaustion of the
  structural fuel that stands in for unbounded looping;
* `isize` locals of `do_quicksort` become `Int`, `usize` values become `Nat`,
  and the `as usize` casts become two-complement reinterpretation modulo
  `2 ^ 64` (a 64-bit platform is assumed, as in the crate test-suite);
* the pseudo-random generator (`rand_xoshiro::Xoshiro256Plus`, an external
  crate seeded with the fixed constant `0`) is modelled as an abstract
  deterministic stream of `u64` values threaded by ownership exactly as the
  source threads `rng`.
-/

namespace ArrayOps

/-- Outcome of a fallible, possibly non-terminating computation over a
borrowed list: `panicked xs` records the list contents at the moment a fatal
index panic fires, `spin` marks exhaustion of the structural fuel standing in
for an unbounded loop. -/
inductive Fail (α : Type u) where
  | panicked (xs : List α)
  | spin
  deriving DecidableEq

/-- Computations of the sort engine: either a result, or a `Fail`. -/
abbrev M (α : Type u) (β : Type v) := Except (Fail α) β

/-- Two-complement reinterpretation of an `isize` value as a `usize`
(the `as usize` cast in the source), on a 64-bit platform. -/
def usizeOfIsize (i : Int) : Nat := (i % (2 ^ 64 : Int)).toNat

/-- Model of `ArrayMut::map_pair` (src/array.rs lines 231-241): panics when
the two indices are equal, otherwise indexes both positions (panicking when
either is out of bounds, as `index_mut` does) and applies `f` to the two
elements, returning the result of `f`. -/
def map_pair (xs : List α) (index1 index2 : Nat) (f : α → α → β) : Option β :=
  if index1 = index2 then none
  else match xs[index1]?, xs[index2]? with
    | some a, some b => some (f a b)
    | _, _ => none

/-- Model of `ArrayMut::swap` (src/array.rs lines 216-225): a no-op when the
indices are equal, otherwise takes both elements (panicking when either index
is out of bounds) and exchanges them. -/
def swap (xs : List α) (index1 index2 : Nat) : Option (List α) :=
  if index1 = index2 then some xs
  else match xs[index1]?, xs[index2]? with
    | some a, some b => some ((xs.set index1 b).set index2 a)
    | _, _ => none

/-- Model of `ArrayMut::set` (src/array.rs lines 204-213): built on `get_mut`
(src/array.rs lines 179-185), it replaces the element at an in-bounds index
and returns the previous value, and returns `None` leaving the list unchanged
when the index is out of bounds. -/
def set (xs : List α) (index : Nat) (value : α) : Option α × List α :=
  match xs[index]? with
  | some old => (some old, xs.set index value)
  | none => (none, xs)

/-- Modelled from the spec (section 4.3): the deterministic pseudo-random
source is the external crate `rand_xoshiro` (not part of this repository);
it is modelled as an abstract stream `seq` of `u64` values together with the
current position.  Every theorem below is proved for every stream, hence in
particular for the actual xoshiro256+ stream seeded with the constant `0`. -/
structure RngState where
  seq : Nat → Nat
  pos : Nat

/-- One draw from the stream; the source `next_u64` returns a `u64`. -/
def next_u64 (rng : RngState) : Nat × RngState :=
  (rng.seq rng.pos % 2 ^ 64, ⟨rng.seq, rng.pos + 1⟩)

/-- Model of `gen_range` (src/sort.rs lines 9-12):
`min + (rng.next_u64() as usize % range)` with `range = max - min`. -/
def gen_range (rng : RngState) (min max : Nat) : Nat × RngState :=
  let (n, rng') := next_u64 rng
  (min + n % (max - min), rng')

section Engine

variable (cmp : α → α → Ordering)

/-- The first inner loop of `do_quicksort` (src/sort.rs lines 39-42):
`while l1 != r && map_pair(l1, r, cmp) == Less { l1 += 1 }`.
The fuel argument only stands in for non-termination; every call below
supplies more fuel than the loop can consume. -/
def scan_l1 (xs : List α) (r : Int) : Nat → Int → M α Int
  | 0, _ => .error .spin
  | fuel + 1, l1 =>
    if l1 = r then .ok l1
    else match map_pair xs (usizeOfIsize l1) (usizeOfIsize r) cmp with
      | none => .error (.panicked xs)
      | some o => if o = .lt then scan_l1 xs r fuel (l1 + 1) else .ok l1

/-- The second inner loop of `do_quicksort` (src/sort.rs lines 45-51):
`while r1 != r && map_pair(r, r1, cmp) == Less { if r1 == l { break } r1 -= 1 }`. -/
def scan_r1 (xs : List α) (l r : Int) : Nat → Int → M α Int
  | 0, _ => .error .spin
  | fuel + 1, r1 =>
    if r1 = r then .ok r1
    else match map_pair xs (usizeOfIsize r) (usizeOfIsize r1) cmp with
      | none => .error (.panicked xs)
      | some o =>
        if o = .lt then
          if r1 = l then .ok r1 else scan_r1 xs l r fuel (r1 - 1)
        else .ok r1

/-- The left equal-run step of `do_quicksort` (src/sort.rs lines 56-59):
`if l1 != r && map_pair(l1, r, cmp) == Equal { l2 += 1; swap(l2, l1) }`.
Returns the updated list and the updated `l2`. -/
def eq_left (xs : List α) (r l1 l2 : Int) : M α (List α × Int) :=
  if l1 = r then .ok (xs, l2)
  else match map_pair xs (usizeOfIsize l1) (usizeOfIsize r) cmp with
    | none => .error (.panicked xs)
    | some o =>
      if o = .eq then
        match swap xs (usizeOfIsize (l2 + 1)) (usizeOfIsize l1) with
        | none => .error (.panicked xs)
        | some xs' => .ok (xs', l2 + 1)
      else .ok (xs, l2)

/-- The right equal-run step of `do_quicksort` (src/sort.rs lines 60-63):
`if r1 != r && map_pair(r, r1, cmp) == Equal { r2 -= 1; swap(r1, r2) }`.
Returns the updated list and the updated `r2`. -/
def eq_right (xs : List α) (r r1 r2 : Int) : M α (List α × Int) :=
  if r1 = r then .ok (xs, r2)
  else match map_pair xs (usizeOfIsize r) (usizeOfIsize r1) cmp with
    | none => .error (.panicked xs)
    | some o =>
      if o = .eq then
        match swap xs (usizeOfIsize r1) (usizeOfIsize (r2 - 1)) with
        | none => .error (.panicked xs)
        | some xs' => .ok (xs', r2 - 1)
      else .ok (xs, r2)

/-- The main partition loop of `do_quicksort` (src/sort.rs lines 38-64).
Each iteration advances `l1`, decrements and retreats `r1`, breaks once the
cursors crossed, and otherwise swaps and grows the two equal runs.  Returns
the list and the final `l1`, `r1`, `l2`, `r2`. -/
def partition_loop (l r : Int) :
    Nat → List α → Int → Int → Int → Int → M α (List α × Int × Int × Int × Int)
  | 0, _, _, _, _, _ => .error .spin
  | fuel + 1, xs, l1, r1, l2, r2 =>
    match scan_l1 cmp xs r ((r - l1).toNat + 1) l1 with
    | .error e => .error e
    | .ok l1a =>
      match scan_r1 cmp xs l r ((r1 - 1 - l).toNat + 1) (r1 - 1) with
      | .error e => .error e
      | .ok r1a =>
        if l1a ≥ r1a then .ok (xs, l1a, r1a, l2, r2)
        else match swap xs (usizeOfIsize l1a) (usizeOfIsize r1a) with
          | none => .error (.panicked xs)
          | some xsA =>
            match eq_left cmp xsA r l1a l2 with
            | .error e => .error e
            | .ok resL =>
              match eq_right cmp resL.1 r r1a r2 with
              | .error e => .error e
              | .ok resR => partition_loop l r fuel resR.1 l1a r1a resL.2 resR.2

/-- The first collapse loop of `do_quicksort` (src/sort.rs lines 69-74):
`while k < l2 { swap(k, r1); r1 -= 1; k += 1 }`.  The loop runs exactly
`(l2 - k).toNat` times, which is the `count` argument here.  Returns the list
and the final `r1`. -/
def collapse_left : List α → Nat → Int → Int → M α (List α × Int)
  | xs, 0, _, r1 => .ok (xs, r1)
  | xs, count + 1, k, r1 =>
    match swap xs (usizeOfIsize k) (usizeOfIsize r1) with
    | none => .error (.panicked xs)
    | some xs' => collapse_left xs' count (k + 1) (r1 - 1)

/-- The second collapse loop of `do_quicksort` (src/sort.rs lines 75-80):
`k = r - 1; while k > r2 { swap(l1, k); k -= 1; l1 += 1 }`.  The loop runs
exactly `(k - r2).toNat` times, which is the `count` argument here.  Returns
the list and the final `l1`. -/
def collapse_right : List α → Nat → Int → Int → M α (List α × Int)
  | xs, 0, _, l1 => .ok (xs, l1)
  | xs, count + 1, k, l1 =>
    match swap xs (usizeOfIsize l1) (usizeOfIsize k) with
    | none => .error (.panicked xs)
    | some xs' => collapse_right xs' count (k - 1) (l1 + 1)

/-- One whole partition step of `do_quicksort` (src/sort.rs lines 29-80)
after the pivot index `p` has been drawn: the pivot swap to the right
boundary, the scan loop, the pivot placement `swap(l1, r)`, and the collapse
of the two equal runs.  Returns the list together with the final `r1` and
`l1` bounding the two recursion ranges.  The inner loops receive fuel
`((r - l1).toNat + 1)` resp. `((r1 - 1 - l).toNat + 1)` resp.
`((r - l).toNat + 1)`, which is more than they can consume (proved below). -/
def partition_step (xs : List α) (left right p : Nat) : M α (List α × Int × Int) :=
  match swap xs right p with
  | none => .error (.panicked xs)
  | some xs0 =>
    match partition_loop cmp (left : Int) (right : Int)
        (((right : Int) - (left : Int)).toNat + 1) xs0
        (left : Int) (right : Int) ((left : Int) - 1) (right : Int) with
    | .error e => .error e
    | .ok res =>
      match swap res.1 (usizeOfIsize res.2.1) right with
      | none => .error (.panicked res.1)
      | some xs2 =>
        match collapse_left xs2 ((res.2.2.2.1 - (left : Int)).toNat)
            (left : Int) (res.2.1 - 1) with
        | .error e => .error e
        | .ok res3 =>
          match collapse_right res3.1 (((right : Int) - 1 - res.2.2.2.2).toNat)
              ((right : Int) - 1) (res.2.1 + 1) with
          | .error e => .error e
          | .ok res4 => .ok (res4.1, res3.2, res4.2)

/-- Model of `do_quicksort` (src/sort.rs lines 18-86).  The fuel stands in
for the recursion; fuel `right + 1 - left` is always sufficient (proved
below).  On `right <= left` the call returns at once; otherwise it draws a
pivot, runs one partition step and recurses on `[left, r1]` (when `r1 >= 0`)
and `[l1, right]`, threading the generator by ownership. -/
def do_quicksort : Nat → List α → Nat → Nat → RngState → M α (List α × RngState)
  | 0, _, _, _, _ => .error .spin
  | fuel + 1, xs, left, right, rng =>
    if right ≤ left then .ok (xs, rng)
    else
      match partition_step cmp xs left right (gen_range rng left (right + 1)).1 with
      | .error e => .error e
      | .ok res =>
        match
          (if res.2.1 ≥ 0 then
            do_quicksort fuel res.1 left (usizeOfIsize res.2.1)
              (gen_range rng left (right + 1)).2
           else .ok (res.1, (gen_range rng left (right + 1)).2)) with
        | .error e => .error e
        | .ok res2 => do_quicksort fuel res2.1 (usizeOfIsize res.2.2) right res2.2

/-- Model of `quicksort` (src/sort.rs lines 88-96): seeds the deterministic
generator (position `0` of the fixed stream, standing for
`Xoshiro256Plus::seed_from_u64(0)`) and runs `do_quicksort` with fuel
`right + 1 - left`, which is sufficient. -/
def quicksort (seq : Nat → Nat) (xs : List α) (left right : Nat) : M α (List α × RngState) :=
  do_quicksort cmp (right + 1 - left) xs left right ⟨seq, 0⟩

/-- Model of `ArrayMut::sort_unstable_by` (src/array.rs lines 252-258):
`quicksort(self, 0, self.len() - 1, cmp)`.  On an empty array the source
expression `self.len() - 1` underflows: a debug build panics on the
subtraction, a release build wraps to `usize::MAX` and `gen_range` then
panics on `% 0`; either way the call panics before mutating anything, which
the model records as `panicked` on the unchanged list.  On success the final
generator state is dropped and the sorted list returned. -/
def sort_unstable_by (seq : Nat → Nat) (xs : List α) : M α (List α) :=
  if xs.length = 0 then .error (.panicked xs)
  else
    match quicksort cmp seq xs 0 (xs.length - 1) with
    | .error e => .error e
    | .ok res => .ok res.1

end Engine

/-- The loop of `Array::binary_search_by` (src/array.rs lines 81-87):
`while size > 1 { half = size / 2; mid = base + half;
base = if compare(s[mid]) == Greater { base } else { mid }; size -= half }`.
Reads are in bounds whenever `base + size ≤ xs.length` (the source indexing
would panic otherwise; the default value is never read below).  The fuel
stands in for the loop and `size` is always sufficient.  Returns the final
`base`. -/
def bs_loop [Inhabited α] (compare : α → Ordering) (xs : List α) :
    Nat → Nat → Nat → Nat
  | 0, base, _ => base
  | fuel + 1, base, size =>
    if 1 < size then
      bs_loop compare xs fuel
        (if compare (xs.getD (base + size / 2) default) = .gt then base
         else base + size / 2)
        (size - size / 2)
    else base

/-- Model of `Array::binary_search_by` (src/array.rs lines 71-94): returns
`Err 0` on the empty array, otherwise narrows `[base, base + size)` to a
single candidate and classifies it: `Ok base` on `Equal`, `Err (base + 1)` on
`Less` and `Err base` on `Greater`. -/
def binary_search_by [Inhabited α] (compare : α → Ordering) (xs : List α) :
    Except Nat Nat :=
  if xs.length = 0 then .error 0
  else
    match compare (xs.getD (bs_loop compare xs xs.length 0 xs.length) default) with
    | .eq => .ok (bs_loop compare xs xs.length 0 xs.length)
    | .lt => .error (bs_loop compare xs xs.length 0 xs.length + 1)
    | .gt => .error (bs_loop compare xs xs.length 0 xs.length)

/-- The comparator `Ord::cmp` for `Nat`, used by concrete runs below. -/
def cmpNat (a b : Nat) : Ordering :=
  if a < b then .lt else if a = b then .eq else .gt

/-- Numeric rank of an `Ordering`, used to express that a list is sorted
with respect to the comparator induced by a `compare` closure: the sequence
of `compare` results must be `Less*, Equal*, Greater*`, that is, of
non-decreasing rank. -/
def rank : Ordering → Nat
  | .lt => 0
  | .eq => 1
  | .gt => 2

/-! ### Permutation facts about the `swap` primitive -/

theorem cons_set_perm (x : α) {t : List α} {j : Nat} {b : α} (h : t[j]? = some b) :
    List.Perm (b :: t.set j x) (x :: t) := by
  induction t generalizing j with
  | nil => simp at h
  | cons y t ih =>
    cases j with
    | zero =>
      simp only [List.getElem?_cons_zero, Option.some.injEq] at h
      subst h
      simpa using List.Perm.swap x y t
    | succ k =>
      simp only [List.getElem?_cons_succ] at h
      have h1 : List.Perm (b :: y :: t.set k x) (y :: b :: t.set k x) :=
        List.Perm.swap y b _
      have h2 : List.Perm (y :: b :: t.set k x) (y :: x :: t) := (ih h).cons y
      have h3 : List.Perm (y :: x :: t) (x :: y :: t) := List.Perm.swap x y t
      simpa using h1.trans (h2.trans h3)

theorem set_set_perm {xs : List α} {i j : Nat} {a b : α}
    (ha : xs[i]? = some a) (hb : xs[j]? = some b) :
    List.Perm ((xs.set i b).set j a) xs := by
  induction xs generalizing i j with
  | nil => simp at ha
  | cons x t ih =>
    cases i with
    | zero =>
      simp only [List.getElem?_cons_zero, Option.some.injEq] at ha
      subst ha
      cases j with
      | zero =>
        simp only [List.getElem?_cons_zero, Option.some.injEq] at hb
        subst hb
        simp
      | succ m =>
        simp only [List.getElem?_cons_succ] at hb
        simpa using cons_set_perm x hb
    | succ n =>
      simp only [List.getElem?_cons_succ] at ha
      cases j with
      | zero =>
        simp only [List.getElem?_cons_zero, Option.some.injEq] at hb
        subst hb
        simpa using cons_set_perm x ha
      | succ m =>
        simp only [List.getElem?_cons_succ] at hb
        simpa using (ih ha hb).cons x

theorem swap_perm {xs ys : List α} {i j : Nat} (h : swap xs i j = some ys) :
    List.Perm ys xs := by
  unfold swap at h
  by_cases hij : i = j
  · rw [if_pos hij] at h
    cases Option.some.inj h
    exact List.Perm.refl _
  · rw [if_neg hij] at h
    cases ha : xs[i]? with
    | none => rw [ha] at h; cases hb : xs[j]? <;> rw [hb] at h <;> simp at h
    | some a =>
      rw [ha] at h
      cases hb : xs[j]? with
      | none => rw [hb] at h; simp at h
      | some b =>
        rw [hb] at h
        simp only [Option.some.injEq] at h
        subst h
        exact set_set_perm ha hb

theorem swap_length {xs ys : List α} {i j : Nat} (h : swap xs i j = some ys) :
    ys.length = xs.length :=
  (swap_perm h).length_eq

/-! ### Facts about the scan loops -/

theorem usizeOfIsize_eq_toNat {i : Int} (h0 : 0 ≤ i) (h1 : i < 2 ^ 64) :
    usizeOfIsize i = i.toNat := by
  unfold usizeOfIsize
  rw [Int.emod_eq_of_lt h0 (by exact_mod_cast h1)]

theorem scan_l1_le (cmp : α → α → Ordering) (xs : List α) (r : Int) :
    ∀ fuel l1 v, scan_l1 cmp xs r fuel l1 = .ok v → l1 ≤ v ∧ (l1 ≤ r → v ≤ r) := by
  intro fuel
  induction fuel with
  | zero => intro l1 v h; simp [scan_l1] at h
  | succ f ih =>
    intro l1 v h
    simp only [scan_l1] at h
    split at h
    · rename_i hlr
      cases Except.ok.inj h
      exact ⟨le_refl _, fun _ => le_of_eq hlr⟩
    · split at h
      · simp at h
      · split at h
        · obtain ⟨h1, h2⟩ := ih (l1 + 1) v h
          exact ⟨by omega, fun h3 => h2 (by omega)⟩
        · cases Except.ok.inj h
          exact ⟨le_refl _, fun h3 => h3⟩

theorem scan_l1_ne_spin (cmp : α → α → Ordering) (xs : List α) (r : Int) :
    ∀ fuel l1, l1 ≤ r → (r - l1).toNat < fuel →
      scan_l1 cmp xs r fuel l1 ≠ .error .spin := by
  intro fuel
  induction fuel with
  | zero => intro l1 _ h2; omega
  | succ f ih =>
    intro l1 h1 h2
    simp only [scan_l1]
    split
    · simp
    · rename_i hlr
      split
      · simp
      · split
        · exact ih (l1 + 1) (by omega) (by omega)
        · simp

theorem scan_l1_error (cmp : α → α → Ordering) (xs : List α) (r : Int) :
    ∀ fuel l1 e, scan_l1 cmp xs r fuel l1 = .error e →
      e = .spin ∨ e = .panicked xs := by
  intro fuel
  induction fuel with
  | zero =>
    intro l1 e h
    simp only [scan_l1] at h
    exact Or.inl (Except.error.inj h).symm
  | succ f ih =>
    intro l1 e h
    simp only [scan_l1] at h
    split at h
    · simp at h
    · split at h
      · exact Or.inr (Except.error.inj h).symm
      · split at h
        · exact ih (l1 + 1) e h
        · simp at h

theorem scan_r1_bounds (cmp : α → α → Ordering) (xs : List α) (l r : Int) :
    ∀ fuel r1 v, scan_r1 cmp xs l r fuel r1 = .ok v → v ≤ r1 ∧ (l ≤ r1 → l ≤ v) := by
  intro fuel
  induction fuel with
  | zero => intro r1 v h; simp [scan_r1] at h
  | succ f ih =>
    intro r1 v h
    simp only [scan_r1] at h
    split at h
    · cases Except.ok.inj h
      exact ⟨le_refl _, fun h2 => h2⟩
    · split at h
      · simp at h
      · split at h
        · split at h
          · rename_i hrl
            cases Except.ok.inj h
            exact ⟨le_refl _, fun h2 => le_of_eq hrl.symm⟩
          · rename_i hrl
            obtain ⟨h1, h2⟩ := ih (r1 - 1) v h
            exact ⟨by omega, fun h3 => h2 (by omega)⟩
        · cases Except.ok.inj h
          exact ⟨le_refl _, fun h2 => h2⟩

theorem scan_r1_ne_spin (cmp : α → α → Ordering) (xs : List α) (l r : Int) :
    ∀ fuel r1, l ≤ r1 → (r1 - l).toNat < fuel →
      scan_r1 cmp xs l r fuel r1 ≠ .error .spin := by
  intro fuel
  induction fuel with
  | zero => intro r1 _ h2; omega
  | succ f ih =>
    intro r1 h1 h2
    simp only [scan_r1]
    split
    · simp
    · split
      · simp
      · split
        · split
          · simp
          · rename_i hrl
            exact ih (r1 - 1) (by omega) (by omega)
        · simp

theorem scan_r1_error (cmp : α → α → Ordering) (xs : List α) (l r : Int) :
    ∀ fuel r1 e, scan_r1 cmp xs l r fuel r1 = .error e →
      e = .spin ∨ e = .panicked xs := by
  intro fuel
  induction fuel with
  | zero =>
    intro r1 e h
    simp only [scan_r1] at h
    exact Or.inl (Except.error.inj h).symm
  | succ f ih =>
    intro r1 e h
    simp only [scan_r1] at h
    split at h
    · simp at h
    · split at h
      · exact Or.inr (Except.error.inj h).symm
      · split at h
        · split at h
          · simp at h
          · exact ih (r1 - 1) e h
        · simp at h

/-! ### Facts about the equal-run steps and the collapse loops -/

theorem eq_left_ok (cmp : α → α → Ordering) (xs : List α) (r l1 l2 : Int) :
    ∀ ys l2f, eq_left cmp xs r l1 l2 = .ok (ys, l2f) → List.Perm ys xs := by
  intro ys l2f h
  unfold eq_left at h
  split at h
  · cases Except.ok.inj h
    exact List.Perm.refl _
  · split at h
    · simp at h
    · split at h
      · split at h
        · simp at h
        · rename_i xsA hswap
          cases Except.ok.inj h
          exact swap_perm hswap
      · cases Except.ok.inj h
        exact List.Perm.refl _

theorem eq_left_error (cmp : α → α → Ordering) (xs : List α) (r l1 l2 : Int) :
    ∀ e, eq_left cmp xs r l1 l2 = .error e → e = .panicked xs := by
  intro e h
  unfold eq_left at h
  split at h
  · simp at h
  · split at h
    · exact (Except.error.inj h).symm
    · split at h
      · split at h
        · exact (Except.error.inj h).symm
        · simp at h
      · simp at h

theorem eq_right_ok (cmp : α → α → Ordering) (xs : List α) (r r1 r2 : Int) :
    ∀ ys r2f, eq_right cmp xs r r1 r2 = .ok (ys, r2f) →
      List.Perm ys xs ∧ r2 - 1 ≤ r2f ∧ r2f ≤ r2 := by
  intro ys r2f h
  unfold eq_right at h
  split at h
  · cases Except.ok.inj h
    exact ⟨List.Perm.refl _, by omega, le_refl _⟩
  · split at h
    · simp at h
    · split at h
      · split at h
        · simp at h
        · rename_i xsA hswap
          cases Except.ok.inj h
          exact ⟨swap_perm hswap, le_refl _, by omega⟩
      · cases Except.ok.inj h
        exact ⟨List.Perm.refl _, by omega, le_refl _⟩

theorem eq_right_error (cmp : α → α → Ordering) (xs : List α) (r r1 r2 : Int) :
    ∀ e, eq_right cmp xs r r1 r2 = .error e → e = .panicked xs := by
  intro e h
  unfold eq_right at h
  split at h
  · simp at h
  · split at h
    · exact (Except.error.inj h).symm
    · split at h
      · split at h
        · exact (Except.error.inj h).symm
        · simp at h
      · simp at h

theorem collapse_left_cases :
    ∀ (count : Nat) (xs : List α) (k r1 : Int),
      (∀ ys r1f, collapse_left xs count k r1 = .ok (ys, r1f) →
        List.Perm ys xs ∧ r1f = r1 - count) ∧
      (∀ e, collapse_left xs count k r1 = .error e →
        ∃ p, e = .panicked p ∧ List.Perm p xs) := by
  intro count
  induction count with
  | zero =>
    intro xs k r1
    constructor
    · intro ys r1f h
      simp only [collapse_left] at h
      cases Except.ok.inj h
      exact ⟨List.Perm.refl _, by omega⟩
    · intro e h
      simp [collapse_left] at h
  | succ c ih =>
    intro xs k r1
    constructor
    · intro ys r1f h
      simp only [collapse_left] at h
      split at h
      · simp at h
      · rename_i xsA hswap
        obtain ⟨h1, h2⟩ := (ih xsA (k + 1) (r1 - 1)).1 ys r1f h
        exact ⟨h1.trans (swap_perm hswap), by omega⟩
    · intro e h
      simp only [collapse_left] at h
      split at h
      · exact ⟨xs, (Except.error.inj h).symm, List.Perm.refl _⟩
      · rename_i xsA hswap
        obtain ⟨p, hp, hperm⟩ := (ih xsA (k + 1) (r1 - 1)).2 e h
        exact ⟨p, hp, hperm.trans (swap_perm hswap)⟩

theorem collapse_right_cases :
    ∀ (count : Nat) (xs : List α) (k l1 : Int),
      (∀ ys l1f, collapse_right xs count k l1 = .ok (ys, l1f) →
        List.Perm ys xs ∧ l1f = l1 + count) ∧
      (∀ e, collapse_right xs count k l1 = .error e →
        ∃ p, e = .panicked p ∧ List.Perm p xs) := by
  intro count
  induction count with
  | zero =>
    intro xs k l1
    constructor
    · intro ys l1f h
      simp only [collapse_right] at h
      cases Except.ok.inj h
      exact ⟨List.Perm.refl _, by omega⟩
    · intro e h
      simp [collapse_right] at h
  | succ c ih =>
    intro xs k l1
    constructor
    · intro ys l1f h
      simp only [collapse_right] at h
      split at h
      · simp at h
      · rename_i xsA hswap
        obtain ⟨h1, h2⟩ := (ih xsA (k - 1) (l1 + 1)).1 ys l1f h
        exact ⟨h1.trans (swap_perm hswap), by omega⟩
    · intro e h
      simp only [collapse_right] at h
      split at h
      · exact ⟨xs, (Except.error.inj h).symm, List.Perm.refl _⟩
      · rename_i xsA hswap
        obtain ⟨p, hp, hperm⟩ := (ih xsA (k - 1) (l1 + 1)).2 e h
        exact ⟨p, hp, hperm.trans (swap_perm hswap)⟩

/-! ### Facts about the partition loop and the partition step -/

theorem partition_loop_perm (cmp : α → α → Ordering) (l r : Int) :
    ∀ fuel (xs : List α) l1 r1 l2 r2,
      (∀ ys l1f r1f l2f r2f,
        partition_loop cmp l r fuel xs l1 r1 l2 r2 = .ok (ys, l1f, r1f, l2f, r2f) →
        List.Perm ys xs) ∧
      (∀ e, partition_loop cmp l r fuel xs l1 r1 l2 r2 = .error e →
        e = .spin ∨ ∃ p, e = .panicked p ∧ List.Perm p xs) := by
  intro fuel
  induction fuel with
  | zero =>
    intro xs l1 r1 l2 r2
    constructor
    · intro ys l1f r1f l2f r2f h
      simp [partition_loop] at h
    · intro e h
      simp only [partition_loop] at h
      exact Or.inl (Except.error.inj h).symm
  | succ f ih =>
    intro xs l1 r1 l2 r2
    constructor
    · intro ys l1f r1f l2f r2f h
      simp only [partition_loop] at h
      split at h
      · simp at h
      · rename_i l1a hscan1
        split at h
        · simp at h
        · rename_i r1a hscan2
          split at h
          · cases Except.ok.inj h
            exact List.Perm.refl _
          · split at h
            · simp at h
            · rename_i xsA hswap
              split at h
              · simp at h
              · rename_i resL heqL
                obtain ⟨xsB, l2a⟩ := resL
                split at h
                · simp at h
                · rename_i resR heqR
                  obtain ⟨xsC, r2a⟩ := resR
                  have hAB := eq_left_ok cmp xsA r l1a l2 xsB l2a heqL
                  have hBC := (eq_right_ok cmp xsB r r1a r2 xsC r2a heqR).1
                  have hrec := (ih xsC l1a r1a l2a r2a).1 ys l1f r1f l2f r2f h
                  exact ((hrec.trans hBC).trans hAB).trans (swap_perm hswap)
    · intro e h
      simp only [partition_loop] at h
      split at h
      · rename_i hscan1
        rcases scan_l1_error cmp xs r ((r - l1).toNat + 1) l1 e
            ((Except.error.inj h) ▸ hscan1) with h1 | h1
        · exact Or.inl h1
        · exact Or.inr ⟨xs, h1, List.Perm.refl _⟩
      · rename_i l1a hscan1
        split at h
        · rename_i hscan2
          rcases scan_r1_error cmp xs l r ((r1 - 1 - l).toNat + 1) (r1 - 1) e
              ((Except.error.inj h) ▸ hscan2) with h1 | h1
          · exact Or.inl h1
          · exact Or.inr ⟨xs, h1, List.Perm.refl _⟩
        · rename_i r1a hscan2
          split at h
          · simp at h
          · split at h
            · exact Or.inr ⟨xs, (Except.error.inj h).symm, List.Perm.refl _⟩
            · rename_i xsA hswap
              split at h
              · rename_i heqL
                have := eq_left_error cmp xsA r l1a l2 e ((Except.error.inj h) ▸ heqL)
                exact Or.inr ⟨xsA, this, swap_perm hswap⟩
              · rename_i resL heqL
                obtain ⟨xsB, l2a⟩ := resL
                have hAB := eq_left_ok cmp xsA r l1a l2 xsB l2a heqL
                split at h
                · rename_i heqR
                  have := eq_right_error cmp xsB r r1a r2 e ((Except.error.inj h) ▸ heqR)
                  exact Or.inr ⟨xsB, this, hAB.trans (swap_perm hswap)⟩
                · rename_i resR heqR
                  obtain ⟨xsC, r2a⟩ := resR
                  have hBC := (eq_right_ok cmp xsB r r1a r2 xsC r2a heqR).1
                  rcases (ih xsC l1a r1a l2a r2a).2 e h with h1 | ⟨p, hp, hperm⟩
                  · exact Or.inl h1
                  · exact Or.inr ⟨p, hp,
                      ((hperm.trans hBC).trans hAB).trans (swap_perm hswap)⟩

theorem partition_loop_invariant (cmp : α → α → Ordering) (l r : Int) :
    ∀ fuel (xs : List α) l1 r1 l2 r2,
      l ≤ l1 → l1 ≤ r → l + 1 ≤ r1 → r1 ≤ r2 → (r1 - l).toNat < fuel →
      (partition_loop cmp l r fuel xs l1 r1 l2 r2 ≠ .error .spin) ∧
      (∀ ys l1f r1f l2f r2f,
        partition_loop cmp l r fuel xs l1 r1 l2 r2 = .ok (ys, l1f, r1f, l2f, r2f) →
        l ≤ l1f ∧ l1f ≤ r ∧ l ≤ r1f ∧ r1f ≤ r2f) := by
  intro fuel
  induction fuel with
  | zero => intro xs l1 r1 l2 r2 h1 h2 h3 h4 h5; omega
  | succ f ih =>
    intro xs l1 r1 l2 r2 h1 h2 h3 h4 h5
    constructor
    · simp only [partition_loop]
      split
      · rename_i e hscan1
        intro hc
        cases Except.error.inj hc
        exact scan_l1_ne_spin cmp xs r ((r - l1).toNat + 1) l1 h2 (by omega) hscan1
      · rename_i l1a hscan1
        split
        · rename_i e hscan2
          intro hc
          cases Except.error.inj hc
          exact scan_r1_ne_spin cmp xs l r ((r1 - 1 - l).toNat + 1) (r1 - 1)
            (by omega) (by omega) hscan2
        · rename_i r1a hscan2
          obtain ⟨hl1a, hl1a2⟩ := scan_l1_le cmp xs r ((r - l1).toNat + 1) l1 l1a hscan1
          obtain ⟨hr1a, hr1a2⟩ :=
            scan_r1_bounds cmp xs l r ((r1 - 1 - l).toNat + 1) (r1 - 1) r1a hscan2
          split
          · simp
          · rename_i hlt
            split
            · simp
            · rename_i xsA hswap
              split
              · rename_i e heqL
                intro hc
                cases Except.error.inj hc
                have := eq_left_error cmp xsA r l1a l2 .spin heqL
                simp at this
              · rename_i resL heqL
                obtain ⟨xsB, l2a⟩ := resL
                split
                · rename_i e heqR
                  intro hc
                  cases Except.error.inj hc
                  have := eq_right_error cmp xsB r r1a r2 .spin heqR
                  simp at this
                · rename_i resR heqR
                  obtain ⟨xsC, r2a⟩ := resR
                  obtain ⟨_, hr2a1, hr2a2⟩ :=
                    eq_right_ok cmp xsB r r1a r2 xsC r2a heqR
                  exact (ih xsC l1a r1a l2a r2a (by omega) (by omega) (by omega)
                    (by omega) (by omega)).1
    · intro ys l1f r1f l2f r2f h
      simp only [partition_loop] at h
      split at h
      · simp at h
      · rename_i l1a hscan1
        split at h
        · simp at h
        · rename_i r1a hscan2
          obtain ⟨hl1a, hl1a2⟩ := scan_l1_le cmp xs r ((r - l1).toNat + 1) l1 l1a hscan1
          obtain ⟨hr1a, hr1a2⟩ :=
            scan_r1_bounds cmp xs l r ((r1 - 1 - l).toNat + 1) (r1 - 1) r1a hscan2
          split at h
          · rename_i hge
            simp only [Except.ok.injEq, Prod.mk.injEq] at h
            obtain ⟨rfl, rfl, rfl, rfl, rfl⟩ := h
            refine ⟨by omega, by omega, by omega, by omega⟩
          · rename_i hlt
            split at h
            · simp at h
            · rename_i xsA hswap
              split at h
              · simp at h
              · rename_i resL heqL
                obtain ⟨xsB, l2a⟩ := resL
                split at h
                · simp at h
                · rename_i resR heqR
                  obtain ⟨xsC, r2a⟩ := resR
                  obtain ⟨_, hr2a1, hr2a2⟩ :=
                    eq_right_ok cmp xsB r r1a r2 xsC r2a heqR
                  exact (ih xsC l1a r1a l2a r2a (by omega) (by omega) (by omega)
                    (by omega) (by omega)).2 ys l1f r1f l2f r2f h

theorem partition_step_perm (cmp : α → α → Ordering) (xs : List α) (left right p : Nat) :
    (∀ ys r1f l1f, partition_step cmp xs left right p = .ok (ys, r1f, l1f) →
      List.Perm ys xs) ∧
    (∀ e, partition_step cmp xs left right p = .error e →
      e = .spin ∨ ∃ q, e = .panicked q ∧ List.Perm q xs) := by
  constructor
  · intro ys r1f l1f h
    unfold partition_step at h
    split at h
    · simp at h
    · rename_i xs0 hswap0
      split at h
      · simp at h
      · rename_i res hloop
        obtain ⟨xs1, l1a, r1a, l2a, r2a⟩ := res
        have hperm1 : List.Perm xs1 xs0 :=
          (partition_loop_perm cmp (left : Int) (right : Int)
            (((right : Int) - (left : Int)).toNat + 1) xs0
            (left : Int) (right : Int) ((left : Int) - 1) (right : Int)).1
            xs1 l1a r1a l2a r2a hloop
        split at h
        · simp at h
        · rename_i xs2 hswap2
          split at h
          · simp at h
          · rename_i res3 hcoll
            obtain ⟨xs3, r1c⟩ := res3
            have hperm3 : List.Perm xs3 xs2 :=
              ((collapse_left_cases _ xs2 (left : Int) (l1a - 1)).1 xs3 r1c hcoll).1
            split at h
            · simp at h
            · rename_i res4 hcolr
              obtain ⟨xs4, l1c⟩ := res4
              have hperm4 : List.Perm xs4 xs3 :=
                ((collapse_right_cases _ xs3 ((right : Int) - 1) (l1a + 1)).1
                  xs4 l1c hcolr).1
              simp only [Except.ok.injEq, Prod.mk.injEq] at h
              obtain ⟨rfl, rfl, rfl⟩ := h
              exact ((hperm4.trans hperm3).trans (swap_perm hswap2)).trans
                (hperm1.trans (swap_perm hswap0))
  · intro e h
    unfold partition_step at h
    split at h
    · rename_i hswap0
      exact Or.inr ⟨xs, (Except.error.inj h).symm, List.Perm.refl _⟩
    · rename_i xs0 hswap0
      split at h
      · rename_i hloop
        rcases (partition_loop_perm cmp (left : Int) (right : Int)
            (((right : Int) - (left : Int)).toNat + 1) xs0
            (left : Int) (right : Int) ((left : Int) - 1) (right : Int)).2 e
            ((Except.error.inj h) ▸ hloop) with h1 | ⟨q, hq, hperm⟩
        · exact Or.inl h1
        · exact Or.inr ⟨q, hq, hperm.trans (swap_perm hswap0)⟩
      · rename_i res hloop
        obtain ⟨xs1, l1a, r1a, l2a, r2a⟩ := res
        have hperm1 : List.Perm xs1 xs0 :=
          (partition_loop_perm cmp (left : Int) (right : Int)
            (((right : Int) - (left : Int)).toNat + 1) xs0
            (left : Int) (right : Int) ((left : Int) - 1) (right : Int)).1
            xs1 l1a r1a l2a r2a hloop
        have hperm10 : List.Perm xs1 xs := hperm1.trans (swap_perm hswap0)
        split at h
        · exact Or.inr ⟨xs1, (Except.error.inj h).symm, hperm10⟩
        · rename_i xs2 hswap2
          have hperm20 : List.Perm xs2 xs := (swap_perm hswap2).trans hperm10
          split at h
          · rename_i hcoll
            obtain ⟨q, hq, hperm⟩ :=
              ((collapse_left_cases _ xs2 (left : Int) (l1a - 1)).2 e
                ((Except.error.inj h) ▸ hcoll))
            exact Or.inr ⟨q, hq, hperm.trans hperm20⟩
          · rename_i res3 hcoll
            obtain ⟨xs3, r1c⟩ := res3
            have hperm30 : List.Perm xs3 xs :=
              (((collapse_left_cases _ xs2 (left : Int) (l1a - 1)).1
                xs3 r1c hcoll).1).trans hperm20
            split at h
            · rename_i hcolr
              obtain ⟨q, hq, hperm⟩ :=
                ((collapse_right_cases _ xs3 ((right : Int) - 1) (l1a + 1)).2 e
                  ((Except.error.inj h) ▸ hcolr))
              exact Or.inr ⟨q, hq, hperm.trans hperm30⟩
            · simp at h

theorem partition_step_bounds (cmp : α → α → Ordering) (xs : List α)
    (left right p : Nat) (hlr : left < right) :
    (partition_step cmp xs left right p ≠ .error .spin) ∧
    (∀ ys r1f l1f, partition_step cmp xs left right p = .ok (ys, r1f, l1f) →
      r1f ≤ (right : Int) - 1 ∧ (left : Int) + 1 ≤ l1f ∧ l1f ≤ 2 * (right : Int)) := by
  have hinv := partition_loop_invariant cmp (left : Int) (right : Int)
    (((right : Int) - (left : Int)).toNat + 1)
  constructor
  · unfold partition_step
    split
    · simp
    · rename_i xs0 hswap0
      split
      · rename_i e hloop
        intro hc
        cases Except.error.inj hc
        exact (hinv xs0 (left : Int) (right : Int) ((left : Int) - 1) (right : Int)
          (by omega) (by omega) (by omega) (by omega) (by omega)).1 hloop
      · rename_i res hloop
        split
        · simp
        · rename_i xs2 hswap2
          split
          · rename_i e hcoll
            intro hc
            cases Except.error.inj hc
            obtain ⟨q, hq, _⟩ :=
              (collapse_left_cases _ xs2 (left : Int) (res.2.1 - 1)).2 .spin hcoll
            simp at hq
          · rename_i res3 hcoll
            split
            · rename_i e hcolr
              intro hc
              cases Except.error.inj hc
              obtain ⟨q, hq, _⟩ :=
                (collapse_right_cases _ res3.1 ((right : Int) - 1) (res.2.1 + 1)).2
                  .spin hcolr
              simp at hq
            · simp
  · intro ys r1f l1f h
    unfold partition_step at h
    split at h
    · simp at h
    · rename_i xs0 hswap0
      split at h
      · simp at h
      · rename_i res hloop
        obtain ⟨xs1, l1a, r1a, l2a, r2a⟩ := res
        obtain ⟨hb1, hb2, hb3, hb4⟩ :=
          (hinv xs0 (left : Int) (right : Int) ((left : Int) - 1) (right : Int)
            (by omega) (by omega) (by omega) (by omega) (by omega)).2
            xs1 l1a r1a l2a r2a hloop
        split at h
        · simp at h
        · rename_i xs2 hswap2
          split at h
          · simp at h
          · rename_i res3 hcoll
            obtain ⟨xs3, r1c⟩ := res3
            have hc3 := ((collapse_left_cases ((l2a - (left : Int)).toNat) xs2
              (left : Int) (l1a - 1)).1 xs3 r1c hcoll).2
            split at h
            · simp at h
            · rename_i res4 hcolr
              obtain ⟨xs4, l1c⟩ := res4
              have hc4 := ((collapse_right_cases (((right : Int) - 1 - r2a).toNat) xs3
                ((right : Int) - 1) (l1a + 1)).1 xs4 l1c hcolr).2
              simp only [Except.ok.injEq, Prod.mk.injEq] at h
              obtain ⟨rfl, rfl, rfl⟩ := h
              refine ⟨by omega, by omega, by omega⟩

/-! ### Facts about the recursion of `do_quicksort` -/

theorem do_quicksort_perm (cmp : α → α → Ordering) :
    ∀ fuel (xs : List α) left right rng,
      (∀ ys rng2, do_quicksort cmp fuel xs left right rng = .ok (ys, rng2) →
        List.Perm ys xs) ∧
      (∀ q, do_quicksort cmp fuel xs left right rng = .error (.panicked q) →
        List.Perm q xs) := by
  intro fuel
  induction fuel with
  | zero =>
    intro xs left right rng
    constructor
    · intro ys rng2 h; simp [do_quicksort] at h
    · intro q h; simp [do_quicksort] at h
  | succ f ih =>
    intro xs left right rng
    constructor
    · intro ys rng2 h
      simp only [do_quicksort] at h
      split at h
      · simp only [Except.ok.injEq, Prod.mk.injEq] at h
        obtain ⟨rfl, rfl⟩ := h
        exact List.Perm.refl _
      · split at h
        · simp at h
        · rename_i res hstep
          obtain ⟨xs1, r1c, l1c⟩ := res
          have hperm1 : List.Perm xs1 xs :=
            (partition_step_perm cmp xs left right _).1 xs1 r1c l1c hstep
          split at h
          · simp at h
          · rename_i res2 heq2
            obtain ⟨xs2, rng1⟩ := res2
            have hperm2 : List.Perm xs2 xs1 := by
              by_cases h0 : r1c ≥ 0
              · rw [if_pos h0] at heq2
                exact (ih xs1 left (usizeOfIsize r1c) _).1 xs2 rng1 heq2
              · rw [if_neg h0] at heq2
                simp only [Except.ok.injEq, Prod.mk.injEq] at heq2
                obtain ⟨rfl, rfl⟩ := heq2
                exact List.Perm.refl _
            exact ((ih xs2 (usizeOfIsize l1c) right rng1).1 ys rng2 h).trans
              (hperm2.trans hperm1)
    · intro q h
      simp only [do_quicksort] at h
      split at h
      · simp at h
      · split at h
        · rename_i hstep
          rcases (partition_step_perm cmp xs left right _).2 (.panicked q)
              ((Except.error.inj h) ▸ hstep) with h1 | ⟨q2, hq2, hperm⟩
          · simp at h1
          · cases Fail.panicked.inj hq2
            exact hperm
        · rename_i res hstep
          obtain ⟨xs1, r1c, l1c⟩ := res
          have hperm1 : List.Perm xs1 xs :=
            (partition_step_perm cmp xs left right _).1 xs1 r1c l1c hstep
          split at h
          · rename_i heq2
            have heq2q := (Except.error.inj h) ▸ heq2
            by_cases h0 : r1c ≥ 0
            · rw [if_pos h0] at heq2q
              exact ((ih xs1 left (usizeOfIsize r1c) _).2 q heq2q).trans hperm1
            · rw [if_neg h0] at heq2q
              simp at heq2q
          · rename_i res2 heq2
            obtain ⟨xs2, rng1⟩ := res2
            have hperm2 : List.Perm xs2 xs1 := by
              by_cases h0 : r1c ≥ 0
              · rw [if_pos h0] at heq2
                exact (ih xs1 left (usizeOfIsize r1c) _).1 xs2 rng1 heq2
              · rw [if_neg h0] at heq2
                simp only [Except.ok.injEq, Prod.mk.injEq] at heq2
                obtain ⟨rfl, rfl⟩ := heq2
                exact List.Perm.refl _
            exact ((ih xs2 (usizeOfIsize l1c) right rng1).2 q h).trans
              (hperm2.trans hperm1)

theorem do_quicksort_ne_spin (cmp : α → α → Ordering) :
    ∀ fuel (xs : List α) left right rng, right < 2 ^ 63 →
      right + 1 - left ≤ fuel → 0 < fuel →
      do_quicksort cmp fuel xs left right rng ≠ .error .spin := by
  intro fuel
  induction fuel with
  | zero => intro xs left right rng _ _ h3; omega
  | succ f ih =>
    intro xs left right rng hr hfuel _
    have h64 : ((2 : Int) ^ 64) = 18446744073709551616 := by norm_num
    have h63n : (2 : Nat) ^ 63 = 9223372036854775808 := by norm_num
    simp only [do_quicksort]
    split
    · simp
    · rename_i hrl
      split
      · rename_i e hstep
        intro hc
        cases Except.error.inj hc
        exact (partition_step_bounds cmp xs left right _ (by omega)).1 hstep
      · rename_i res hstep
        obtain ⟨xs1, r1c, l1c⟩ := res
        obtain ⟨hb1, hb2, hb3⟩ :=
          (partition_step_bounds cmp xs left right _ (by omega)).2 xs1 r1c l1c hstep
        split
        · rename_i e heq2
          intro hc
          cases Except.error.inj hc
          dsimp only at heq2
          by_cases h0 : r1c ≥ 0
          · rw [if_pos h0] at heq2
            rw [usizeOfIsize_eq_toNat h0 (by omega)] at heq2
            exact ih xs1 left r1c.toNat _ (by omega) (by omega) (by omega) heq2
          · rw [if_neg h0] at heq2
            simp at heq2
        · rename_i res2 heq2
          obtain ⟨xs2, rng1⟩ := res2
          dsimp only
          rw [usizeOfIsize_eq_toNat (by omega) (by omega)]
          exact ih xs2 l1c.toNat right rng1 (by omega) (by omega) (by omega)

/-! ### Claim C6: `map_pair` -/

/-- C6: invoking `map_pair` with `index1 == index2` panics (`none`) and never
silently proceeds, and for distinct in-bounds indices `i ≠ j` it applies the
supplied function to the elements at `i` and `j` and returns its result. -/
theorem map_pair_equal_panics_distinct_applies (xs : List α) (f : α → α → β) :
    (∀ i, map_pair xs i i f = none) ∧
    (∀ i j, i ≠ j → ∀ (hi : i < xs.length) (hj : j < xs.length),
      map_pair xs i j f = some (f xs[i] xs[j])) := by
  constructor
  · intro i
    simp [map_pair]
  · intro i j hij hi hj
    simp [map_pair, hij, List.getElem?_eq_getElem hi, List.getElem?_eq_getElem hj]

/-- Witness for C6 at the concrete list `[10, 20]`. -/
theorem map_pair_equal_panics_distinct_applies_witness :
    map_pair ([10, 20] : List Nat) 0 0 (fun a b => a + b) = none ∧
    map_pair ([10, 20] : List Nat) 0 1 (fun a b => a + b) = some 30 :=
  ⟨(map_pair_equal_panics_distinct_applies [10, 20] (fun a b => a + b)).1 0,
    (map_pair_equal_panics_distinct_applies [10, 20] (fun a b => a + b)).2 0 1
      (by decide) (by decide) (by decide)⟩

/-! ### Claim C7: `swap` -/

/-- C7 counterexample: the claim states that `swap` fails with a fatal
out-of-bounds condition whenever either index is `>= length`, but the source
checks `index1 != index2` first, so an out-of-bounds `swap(2, 2)` on a
one-element array is a silent no-op instead of a panic. -/
theorem swap_oob_equal_indices_counterexample :
    ([0] : List Nat).length ≤ 2 ∧ swap ([0] : List Nat) 2 2 = some [0] :=
  ⟨by decide, rfl⟩

/-- C7 (amended): `swap` exchanges the elements at `i` and `j` when both are
valid, is a no-op whenever `i == j` (even when that index is out of bounds),
and fails with a fatal out-of-bounds condition when `i ≠ j` and either index
is `>= length`. -/
theorem swap_exchanges_or_panics (xs : List α) (i j : Nat) :
    (i = j → swap xs i j = some xs) ∧
    (∀ (hi : i < xs.length) (hj : j < xs.length), ∃ ys, swap xs i j = some ys ∧
      ys.length = xs.length ∧ ys[i]? = xs[j]? ∧ ys[j]? = xs[i]? ∧
      ∀ k, k ≠ i → k ≠ j → ys[k]? = xs[k]?) ∧
    (i ≠ j → xs.length ≤ i ∨ xs.length ≤ j → swap xs i j = none) := by
  refine ⟨fun hij => by simp [swap, hij], fun hi hj => ?_, fun hij hoob => ?_⟩
  · by_cases hij : i = j
    · subst hij
      exact ⟨xs, by simp [swap], rfl, rfl, rfl, fun _ _ _ => rfl⟩
    · refine ⟨(xs.set i xs[j]).set j xs[i], ?_, ?_, ?_, ?_, ?_⟩
      · simp [swap, hij, List.getElem?_eq_getElem hi, List.getElem?_eq_getElem hj]
      · simp
      · rw [List.getElem?_set_ne (fun h => hij h.symm),
          List.getElem?_set_eq_of_lt _ (by simpa using hi),
          List.getElem?_eq_getElem hj]
      · rw [List.getElem?_set_eq_of_lt _ (by simpa using hj),
          List.getElem?_eq_getElem hi]
      · intro k hki hkj
        rw [List.getElem?_set_ne (fun h => hkj h.symm),
          List.getElem?_set_ne (fun h => hki h.symm)]
  · rcases hoob with hoob | hoob
    · simp [swap, hij, List.getElem?_eq_none hoob]
    · simp [swap, hij, List.getElem?_eq_none hoob]

/-- Witness for the amended C7 at the concrete list `[1, 2, 3]`. -/
theorem swap_exchanges_or_panics_witness :
    swap ([1, 2, 3] : List Nat) 1 1 = some [1, 2, 3] ∧
    (∃ ys, swap ([1, 2, 3] : List Nat) 0 2 = some ys ∧
      ys.length = ([1, 2, 3] : List Nat).length ∧
      ys[0]? = ([1, 2, 3] : List Nat)[2]? ∧ ys[2]? = ([1, 2, 3] : List Nat)[0]? ∧
      ∀ k, k ≠ 0 → k ≠ 2 → ys[k]? = ([1, 2, 3] : List Nat)[k]?) ∧
    swap ([1, 2, 3] : List Nat) 1 5 = none :=
  ⟨(swap_exchanges_or_panics [1, 2, 3] 1 1).1 rfl,
    (swap_exchanges_or_panics [1, 2, 3] 0 2).2.1 (by decide) (by decide),
    (swap_exchanges_or_panics [1, 2, 3] 1 5).2.2 (by decide) (Or.inr (by decide))⟩

/-! ### Claim C9: `set` -/

/-- C9: `set index value` with `index < length` stores `value` at `index` and
returns `Some` of the previous element at that position (the first component
always equals the optional element at `index`), and with `index >= length` it
returns `None` and leaves the list completely unchanged. -/
theorem set_stores_and_returns_previous (xs : List α) (index : Nat) (value : α) :
    (set xs index value).1 = xs[index]? ∧
    (index < xs.length →
      (set xs index value).2.length = xs.length ∧
      (set xs index value).2[index]? = some value ∧
      ∀ k, k ≠ index → (set xs index value).2[k]? = xs[k]?) ∧
    (xs.length ≤ index → set xs index value = (none, xs)) := by
  refine ⟨?_, fun hi => ?_, fun hi => ?_⟩
  · unfold set
    cases h : xs[index]? <;> simp [h]
  · rw [set, List.getElem?_eq_getElem hi]
    refine ⟨by simp, List.getElem?_set_eq_of_lt _ (by simpa using hi), ?_⟩
    intro k hk
    exact List.getElem?_set_ne (fun h => hk h.symm)
  · rw [set, List.getElem?_eq_none hi]

/-- Witness for C9 at the concrete list `[4, 5, 6]`. -/
theorem set_stores_and_returns_previous_witness :
    ((set ([4, 5, 6] : List Nat) 1 9).2.length = ([4, 5, 6] : List Nat).length ∧
      (set ([4, 5, 6] : List Nat) 1 9).2[1]? = some 9 ∧
      ∀ k, k ≠ 1 → (set ([4, 5, 6] : List Nat) 1 9).2[k]? = ([4, 5, 6] : List Nat)[k]?) ∧
    set ([4, 5, 6] : List Nat) 7 9 = (none, [4, 5, 6]) :=
  ⟨(set_stores_and_returns_previous [4, 5, 6] 1 9).2.1 (by decide),
    (set_stores_and_returns_previous [4, 5, 6] 7 9).2.2 (by decide)⟩

/-! ### Claim C8: determinism of the sort -/

/-- C8: sorting is deterministic: two independent `sort_unstable_by` calls on
identical input lists with an identical comparator produce identical results.
In this embedding the pseudo-random generator is an explicit deterministic
stream started at the fixed position `0` inside `quicksort` (the source seeds
`Xoshiro256Plus` with the constant `0` at every top-level call and never
consults time or entropy), so the whole sort is a pure function of the list,
the comparator and the fixed stream. -/
theorem sort_unstable_by_deterministic (cmp : α → α → Ordering) (seq : Nat → Nat)
    (xs ys : List α) (h : xs = ys) :
    sort_unstable_by cmp seq xs = sort_unstable_by cmp seq ys := by
  rw [h]

/-- Witness for C8: two runs on the concrete list `[3, 1, 2]`. -/
theorem sort_unstable_by_deterministic_witness :
    sort_unstable_by cmpNat (fun _ => 0) [3, 1, 2] =
      sort_unstable_by cmpNat (fun _ => 0) [3, 1, 2] :=
  sort_unstable_by_deterministic cmpNat (fun _ => 0) [3, 1, 2] [3, 1, 2] rfl

/-! ### Claim C2: the multiset of elements is preserved -/

/-- C2: for every list, every comparator and every generator stream, the
multiset of elements after a `sort_unstable_by` call equals the multiset
before it, and the length is unchanged — both when the call returns normally
and when it is abandoned by a panic (every mutation the engine performs is a
`swap` of two in-bounds elements, and a panic fires before its faulty access
mutates anything). -/
theorem sort_unstable_by_preserves_multiset (cmp : α → α → Ordering)
    (seq : Nat → Nat) (xs : List α) :
    (∀ ys, sort_unstable_by cmp seq xs = .ok ys →
      List.Perm ys xs ∧ ys.length = xs.length) ∧
    (∀ p, sort_unstable_by cmp seq xs = .error (.panicked p) →
      List.Perm p xs ∧ p.length = xs.length) := by
  constructor
  · intro ys h
    unfold sort_unstable_by at h
    split at h
    · simp at h
    · split at h
      · simp at h
      · rename_i res hq
        obtain ⟨ys2, rng2⟩ := res
        simp only [Except.ok.injEq] at h
        subst h
        unfold quicksort at hq
        have := (do_quicksort_perm cmp (xs.length - 1 + 1 - 0) xs 0
          (xs.length - 1) ⟨seq, 0⟩).1 ys2 rng2 hq
        exact ⟨this, this.length_eq⟩
  · intro p h
    unfold sort_unstable_by at h
    split at h
    · simp only [Except.error.injEq, Fail.panicked.injEq] at h
      subst h
      exact ⟨List.Perm.refl _, rfl⟩
    · split at h
      · rename_i e hq
        cases Except.error.inj h
        unfold quicksort at hq
        have := (do_quicksort_perm cmp (xs.length - 1 + 1 - 0) xs 0
          (xs.length - 1) ⟨seq, 0⟩).2 p hq
        exact ⟨this, this.length_eq⟩
      · simp at h

/-- Witness for C2: sorting `[2, 1]` returns `[1, 2]`, a permutation of the
input of the same length. -/
theorem sort_unstable_by_preserves_multiset_witness :
    List.Perm [1, 2] [2, 1] ∧ ([1, 2] : List Nat).length = ([2, 1] : List Nat).length :=
  (sort_unstable_by_preserves_multiset cmpNat (fun _ => 0) [2, 1]).1 [1, 2] rfl

/-! ### Claim C4: termination -/

/-- C4: for every list, every comparator (no consistency assumed), every
generator stream and every range with `left <= right < length`, the sort
terminates: with fuel `right + 1 - left` (and any larger fuel) the fueled
recursion never exhausts its fuel, so the call either runs to completion or
aborts with a fatal panic.  The bound `length ≤ 2 ^ 63` reflects that `isize`
casts in the source are only faithful for lengths representable in `isize`,
which Rust guarantees for any real allocation. -/
theorem quicksort_terminates (cmp : α → α → Ordering) (seq : Nat → Nat) (xs : List α) :
    (∀ left right (rng : RngState) fuel, left ≤ right → right < xs.length →
      xs.length ≤ 2 ^ 63 → right + 1 - left ≤ fuel →
      do_quicksort cmp fuel xs left right rng ≠ .error .spin) ∧
    (xs.length ≤ 2 ^ 63 → sort_unstable_by cmp seq xs ≠ .error .spin) := by
  constructor
  · intro left right rng fuel h1 h2 h3 h4
    exact do_quicksort_ne_spin cmp fuel xs left right rng (by omega) h4 (by omega)
  · intro h3
    unfold sort_unstable_by
    split
    · simp
    · rename_i hne
      split
      · rename_i e hq
        intro hc
        cases Except.error.inj hc
        unfold quicksort at hq
        exact do_quicksort_ne_spin cmp (xs.length - 1 + 1 - 0) xs 0 (xs.length - 1)
          ⟨seq, 0⟩ (by omega) (by omega) (by omega) hq
      · simp

/-- Witness for C4 on the concrete list `[5, 1]`. -/
theorem quicksort_terminates_witness :
    do_quicksort cmpNat 2 [5, 1] 0 1 ⟨fun _ => 0, 0⟩ ≠ .error .spin ∧
    sort_unstable_by cmpNat (fun _ => 0) [5, 1] ≠ .error .spin :=
  ⟨(quicksort_terminates cmpNat (fun _ => 0) [5, 1]).1 0 1 ⟨fun _ => 0, 0⟩ 2
      (by decide) (by decide) (by decide) (by decide),
    (quicksort_terminates cmpNat (fun _ => 0) [5, 1]).2 (by decide)⟩

/-! ### Claims C1, C3 and C5: the engine panics on duplicate-heavy input -/

/-- Bridge: when the first partition step of a top-level sort call panics,
the whole `sort_unstable_by` call reports exactly that panic.  The pivot
index of the first step is `left + n % (right + 1 - left)` for the first
stream draw `n`, so here `seq 0 % 2 ^ 64 % (m + 1 + 1)`. -/
theorem sort_unstable_by_panic_bridge (cmp : α → α → Ordering) (seq : Nat → Nat)
    (xs : List α) (m : Nat) (e : Fail α) (hlen : xs.length = m + 2)
    (hp : partition_step cmp xs 0 (m + 1) (seq 0 % 2 ^ 64 % (m + 1 + 1)) = .error e) :
    sort_unstable_by cmp seq xs = .error e := by
  unfold sort_unstable_by quicksort
  rw [hlen]
  rw [if_neg (by omega)]
  have hsub : m + 2 - 1 = m + 1 := rfl
  rw [hsub]
  simp only [Nat.sub_zero]
  simp only [do_quicksort]
  rw [if_neg (by omega)]
  simp only [gen_range, next_u64, Nat.zero_add, Nat.sub_zero]
  rw [hp]

/-- C1: the claim that `sort_unstable_by` with a valid total order sorts the
array fails on the code: the source replaces the pre-increment scans of the
Java original by test-first loops, so on an array of four equal elements the
left scan cursor stalls, the equal-run cursor `l2` overtakes it, the scan
ends with `l1 = left`, `r1` becomes `-1`, and the first collapse loop calls
`swap(k, r1 as usize)` out of bounds — a panic, for every pivot the stream
can draw, instead of a sorted array. -/
theorem sort_unstable_by_panics_on_equal_run :
    ∀ seq : Nat → Nat,
      sort_unstable_by cmpNat seq [0, 0, 0, 0] = .error (.panicked [0, 0, 0, 0]) := by
  intro seq
  apply sort_unstable_by_panic_bridge cmpNat seq [0, 0, 0, 0] 2 (.panicked [0, 0, 0, 0]) rfl
  show partition_step cmpNat [0, 0, 0, 0] 0 3 (seq 0 % 2 ^ 64 % 4) =
    .error (.panicked [0, 0, 0, 0])
  have h4 : seq 0 % 2 ^ 64 % 4 < 4 := Nat.mod_lt _ (by omega)
  rcases (by omega : seq 0 % 2 ^ 64 % 4 = 0 ∨ seq 0 % 2 ^ 64 % 4 = 1 ∨
      seq 0 % 2 ^ 64 % 4 = 2 ∨ seq 0 % 2 ^ 64 % 4 = 3) with h | h | h | h <;>
    rw [h] <;> rfl

/-- C3: the claim that one partition step always leaves the range in three
comparator-ordered zones and recurses only outside the equal zone fails on
the code: on the range `[0, 3]` of four equal elements with pivot index `0`
the partition step panics in the collapse phase (the collapse loop indexes
position `-1 as usize`), so no zones are established at all. -/
theorem partition_step_panics_on_equal_run :
    partition_step cmpNat [0, 0, 0, 0] 0 3 0 = .error (.panicked [0, 0, 0, 0]) := rfl

/-- C5: the claim that sorting a length-0 sequence is a no-op fails on the
code: `sort_unstable_by` computes `self.len() - 1`, which underflows on an
empty array (a debug build panics on the subtraction; a release build wraps
to `usize::MAX` and `gen_range` then panics dividing by zero), so the empty
sort panics instead of returning unchanged.  A length-1 sort does return the
sequence unchanged. -/
theorem sort_unstable_by_empty_panics (cmp : α → α → Ordering) :
    (∀ seq : Nat → Nat, sort_unstable_by cmp seq ([] : List α) = .error (.panicked [])) ∧
    (∀ (seq : Nat → Nat) (x : α), sort_unstable_by cmp seq [x] = .ok [x]) := by
  constructor
  · intro seq
    rfl
  · intro seq x
    rfl

/-! ### Claim C10: `binary_search_by` -/

theorem rank_le_zero {o : Ordering} (h : rank o ≤ 0) : o = .lt := by
  cases o
  · rfl
  · simp [rank] at h
  · simp [rank] at h

theorem rank_ge_two {o : Ordering} (h : 2 ≤ rank o) : o = .gt := by
  cases o
  · simp [rank] at h
  · simp [rank] at h
  · rfl

theorem bs_loop_invariant [Inhabited α] (compare : α → Ordering) (xs : List α)
    (hmono : ∀ j, j < xs.length → ∀ i, i ≤ j →
      rank (compare (xs.getD i default)) ≤ rank (compare (xs.getD j default))) :
    ∀ fuel base size, 1 ≤ size → base + size ≤ xs.length → size ≤ fuel →
      (∀ i, base + size ≤ i → i < xs.length → compare (xs.getD i default) = .gt) →
      ((∀ i, i < base → compare (xs.getD i default) = .lt) ∨
        compare (xs.getD base default) = .eq) →
      (bs_loop compare xs fuel base size < xs.length ∧
       (∀ i, bs_loop compare xs fuel base size < i → i < xs.length →
         compare (xs.getD i default) = .gt) ∧
       ((∀ i, i < bs_loop compare xs fuel base size →
          compare (xs.getD i default) = .lt) ∨
        compare (xs.getD (bs_loop compare xs fuel base size) default) = .eq)) := by
  intro fuel
  induction fuel with
  | zero => intro base size h1 h2 h3 hHi hL; omega
  | succ f ih =>
    intro base size h1 h2 h3 hHi hL
    simp only [bs_loop]
    split
    · rename_i hsz
      split
      · rename_i hc
        refine ih base (size - size / 2) (by omega) (by omega) (by omega) ?_ hL
        intro i hi hilen
        have hmid : base + size / 2 ≤ i := by omega
        have hr := hmono i hilen (base + size / 2) hmid
        rw [hc] at hr
        simp only [rank] at hr
        exact rank_ge_two hr
      · rename_i hc
        refine ih (base + size / 2) (size - size / 2) (by omega) (by omega) (by omega)
          ?_ ?_
        · intro i hi hilen
          exact hHi i (by omega) hilen
        · cases hco : compare (xs.getD (base + size / 2) default) with
          | lt =>
            refine Or.inl ?_
            intro i hi
            have hr := hmono (base + size / 2) (by omega) i (by omega)
            rw [hco] at hr
            simp only [rank] at hr
            exact rank_le_zero hr
          | eq => exact Or.inr rfl
          | gt => exact absurd hco hc
    · rename_i hsz
      have hsize : size = 1 := by omega
      refine ⟨by omega, ?_, hL⟩
      intro i hi hilen
      exact hHi i (by omega) hilen

/-- C10: for every list sorted with respect to the comparator induced by
`compare` (the sequence of `compare` results has non-decreasing rank),
`binary_search_by` returns `Ok i` only when `compare` of the element at `i`
is `Equal`, and returns `Err i` only when no element compares `Equal`, with
`0 ≤ i ≤ length` and `i` the position where a matching element could be
inserted to keep the list sorted (everything strictly below `i` compares
`Less`, everything at or above compares `Greater`); on the empty list it
returns `Err 0`. -/
theorem binary_search_by_correct [Inhabited α] (compare : α → Ordering) (xs : List α)
    (hmono : ∀ j, j < xs.length → ∀ i, i ≤ j →
      rank (compare (xs.getD i default)) ≤ rank (compare (xs.getD j default))) :
    (∀ i, binary_search_by compare xs = .ok i →
      i < xs.length ∧ compare (xs.getD i default) = .eq) ∧
    (∀ i, binary_search_by compare xs = .error i → i ≤ xs.length ∧
      (∀ j, j < xs.length → compare (xs.getD j default) ≠ .eq) ∧
      (∀ j, j < i → compare (xs.getD j default) = .lt) ∧
      (∀ j, i ≤ j → j < xs.length → compare (xs.getD j default) = .gt)) ∧
    (xs = [] → binary_search_by compare xs = .error 0) := by
  by_cases hnil : xs.length = 0
  · refine ⟨?_, ?_, ?_⟩
    · intro i h
      unfold binary_search_by at h
      rw [if_pos hnil] at h
      simp at h
    · intro i h
      unfold binary_search_by at h
      rw [if_pos hnil] at h
      cases Except.error.inj h
      exact ⟨by omega, fun j hj => absurd hj (by omega),
        fun j hj => absurd hj (by omega), fun j hj1 hj2 => absurd hj2 (by omega)⟩
    · intro _
      unfold binary_search_by
      rw [if_pos hnil]
  · obtain ⟨hb1, hb2, hb3⟩ := bs_loop_invariant compare xs hmono xs.length 0 xs.length
      (by omega) (by omega) (le_refl _)
      (fun i hi hilen => absurd hilen (by omega))
      (Or.inl (fun i hi => absurd hi (by omega)))
    refine ⟨?_, ?_, ?_⟩
    · intro i h
      unfold binary_search_by at h
      rw [if_neg hnil] at h
      split at h
      · rename_i hc
        cases Except.ok.inj h
        exact ⟨hb1, hc⟩
      · simp at h
      · simp at h
    · intro i h
      unfold binary_search_by at h
      rw [if_neg hnil] at h
      split at h
      · simp at h
      · rename_i hc
        cases Except.error.inj h
        have hblt : ∀ j, j ≤ bs_loop compare xs xs.length 0 xs.length →
            compare (xs.getD j default) = .lt := by
          intro j hj
          have hr := hmono (bs_loop compare xs xs.length 0 xs.length) hb1 j hj
          rw [hc] at hr
          simp only [rank] at hr
          exact rank_le_zero hr
        refine ⟨by omega, ?_, ?_, ?_⟩
        · intro j hjlen
          by_cases hjb : j ≤ bs_loop compare xs xs.length 0 xs.length
          · rw [hblt j hjb]; simp
          · rw [hb2 j (by omega) hjlen]; simp
        · intro j hj
          exact hblt j (by omega)
        · intro j hj1 hj2
          exact hb2 j (by omega) hj2
      · rename_i hc
        cases Except.error.inj h
        have hL : ∀ j, j < bs_loop compare xs xs.length 0 xs.length →
            compare (xs.getD j default) = .lt := by
          rcases hb3 with hb3 | hb3
          · exact hb3
          · exact absurd (hb3.symm.trans hc) (by decide)
        have hgt : ∀ j, bs_loop compare xs xs.length 0 xs.length ≤ j →
            j < xs.length → compare (xs.getD j default) = .gt := by
          intro j hj1 hj2
          have hr := hmono j hj2 (bs_loop compare xs xs.length 0 xs.length) hj1
          rw [hc] at hr
          simp only [rank] at hr
          exact rank_ge_two hr
        refine ⟨by omega, ?_, hL, hgt⟩
        intro j hjlen
        by_cases hjb : j < bs_loop compare xs xs.length 0 xs.length
        · rw [hL j hjb]; simp
        · rw [hgt j (by omega) hjlen]; simp
    · intro hx
      rw [hx] at hnil
      simp at hnil

/-- Witness for C10 on the sorted list `[1, 3, 5]`: searching for `3` finds
it at index `1`, searching for `2` reports insertion point `1` with no match. -/
theorem binary_search_by_correct_witness :
    ((1 : Nat) < ([1, 3, 5] : List Nat).length ∧
      cmpNat (([1, 3, 5] : List Nat).getD 1 default) 3 = .eq) ∧
    ((1 : Nat) ≤ ([1, 3, 5] : List Nat).length ∧
      (∀ j, j < ([1, 3, 5] : List Nat).length →
        cmpNat (([1, 3, 5] : List Nat).getD j default) 2 ≠ .eq) ∧
      (∀ j, j < 1 → cmpNat (([1, 3, 5] : List Nat).getD j default) 2 = .lt) ∧
      (∀ j, 1 ≤ j → j < ([1, 3, 5] : List Nat).length →
        cmpNat (([1, 3, 5] : List Nat).getD j default) 2 = .gt)) :=
  ⟨(binary_search_by_correct (fun v => cmpNat v 3) [1, 3, 5] (by decide)).1 1 rfl,
    (binary_search_by_correct (fun v => cmpNat v 2) [1, 3, 5] (by decide)).2.1 1 rfl⟩

end ArrayOps
